import Mathlib

/-!
Verification of mete_distributions.py (METE/AGSNE probability distributions).

Shallow embedding conventions: Python floats are modelled as exact real
numbers, Python ints as ℤ or ℕ; a method that reports a domain error and
returns no value is modelled as an Option-valued function.  External
collaborators (the Lagrange-multiplier solver get_beta/get_lambda2, the
definite-integral routine get_integral_for_psi_cdf, scipy uniform draws)
enter as explicit real parameters or function parameters.
-/

namespace METE

open Real Finset

/-- Python numeric scalars as they matter to the isinstance int guards in
the source: a built-in int, a numpy integer scalar, or a float.
The numpy constructor is modelled from the spec: a numpy integer scalar is
treated as failing the isinstance int test used by the pmf guards. -/
inductive PyNum where
  | pyint : ℤ → PyNum
  | npint : ℤ → PyNum
  | pyfloat : ℝ → PyNum

/-- Numeric value of a Python scalar. -/
def PyNum.val : PyNum → ℝ
  | pyint n => n
  | npint n => n
  | pyfloat x => x

/-- The isinstance int test of the source. -/
def PyNum.isInt : PyNum → Bool
  | pyint _ => true
  | npint _ => false
  | pyfloat _ => false

/-- trunc_logser_gen._pmf normalization: ivals = np.arange(1, upper_bound+1),
normalization = sum(p ** ivals / ivals). -/
def truncLogserNorm {α : Type*} [Field α] (p : α) (ub : ℕ) : α :=
  ((List.range ub).map fun i : ℕ => p ^ (i + 1) / ((i : α) + 1)).sum

/-- trunc_logser_gen._pmf: (p ** x / x) / normalization. -/
def truncLogserPmf {α : Type*} [Field α] (p : α) (ub : ℕ) (x : ℕ) : α :=
  (p ^ x / (x : α)) / truncLogserNorm p ub

theorem truncLogserNorm_eq_sum {α : Type*} [Field α] (p : α) (ub : ℕ) :
    truncLogserNorm p ub = ∑ i in Finset.Icc 1 ub, p ^ i / (i : α) := by
  induction ub with
  | zero => simp [truncLogserNorm]
  | succ n ih =>
      rw [truncLogserNorm, List.range_succ, List.map_append, List.sum_append,
        Finset.sum_Icc_succ_top (by omega : 1 ≤ n + 1)]
      rw [truncLogserNorm] at ih
      rw [ih]
      push_cast
      simp

/-- C1: for every integer x with 1 ≤ x ≤ upper_bound and every p ∈ (0,1),
trunc_logser.pmf(x, p, upper_bound) equals (p^x / x) / Z with
Z = ∑_{i=1}^{upper_bound} p^i / i (the particular case p = 1/2,
upper_bound = 10, x = 1 is the instance proved in the witness below). -/
theorem trunc_logser_pmf_eq (p : ℝ) (ub x : ℕ) (hx1 : 1 ≤ x) (hxu : x ≤ ub)
    (hp0 : 0 < p) (hp1 : p < 1) :
    truncLogserPmf p ub x = (p ^ x / (x : ℝ)) / ∑ i in Finset.Icc 1 ub, p ^ i / (i : ℝ) := by
  rw [truncLogserPmf, truncLogserNorm_eq_sum]

theorem trunc_logser_pmf_eq_witness :
    truncLogserPmf (1/2 : ℝ) 10 1 =
      ((1/2 : ℝ) ^ (1 : ℕ) / ((1 : ℕ) : ℝ)) / ∑ i in Finset.Icc (1 : ℕ) 10, (1/2 : ℝ) ^ i / (i : ℝ) :=
  trunc_logser_pmf_eq (1/2) 10 1 (by norm_num) (by norm_num) (by norm_num) (by norm_num)

/-- psi_epsilon_approx.__init__ norm_factor:
(1/(1-exp(-beta)) - 1/(1-exp(-sigma))) / lambda2 with
sigma = beta + (E0-1)*lambda2. -/
noncomputable def psiApproxNorm (beta lambda2 E0 : ℝ) : ℝ :=
  (1 / (1 - exp (-beta)) - 1 / (1 - exp (-(beta + (E0 - 1) * lambda2)))) / lambda2

/-- psi_epsilon_approx.pdf. -/
noncomputable def psiApproxPdf (beta lambda2 E0 x : ℝ) : ℝ :=
  if 1 ≤ x ∧ x ≤ E0 then
    exp (-(beta + (x - 1) * lambda2)) / (1 - exp (-(beta + (x - 1) * lambda2))) ^ 2 /
      psiApproxNorm beta lambda2 E0
  else 0

/-- psi_epsilon_approx.cdf. -/
noncomputable def psiApproxCdf (beta lambda2 E0 x : ℝ) : ℝ :=
  if 1 ≤ x ∧ x ≤ E0 then
    ((1 / (1 - exp (-beta)) - 1 / (1 - exp (-(beta + (x - 1) * lambda2)))) / lambda2) /
      psiApproxNorm beta lambda2 E0
  else if x < 1 then 0 else 1

/-- psi_epsilon_approx.ppf: m = log(1 - 1/(1/(1-exp(-beta)) - q*norm*lambda2)),
result (-m - (beta - lambda2)) / lambda2. -/
noncomputable def psiApproxPpf (beta lambda2 E0 q : ℝ) : ℝ :=
  (-(Real.log (1 - 1 / (1 / (1 - exp (-beta)) - q * psiApproxNorm beta lambda2 E0 * lambda2))) -
      (beta - lambda2)) / lambda2

/-- C4: for psi_epsilon_approx built from multipliers with beta > 0 and
lambda2 > 0 (and a nondegenerate support 1 < E0), the closed-form quantile
function inverts the CDF exactly in real arithmetic:
ppf(cdf(x)) = x for every x in [1, E0]. -/
theorem psi_epsilon_approx_ppf_cdf (beta lambda2 E0 x : ℝ)
    (hb : 0 < beta) (hl : 0 < lambda2) (hE : 1 < E0) (hx1 : 1 ≤ x) (hxE : x ≤ E0) :
    psiApproxPpf beta lambda2 E0 (psiApproxCdf beta lambda2 E0 x) = x := by
  have hg : 0 < beta + (x - 1) * lambda2 := by nlinarith
  have hG1 : exp (-(beta + (x - 1) * lambda2)) < 1 := exp_lt_one_iff.mpr (by linarith)
  have hBx : 0 < 1 - exp (-(beta + (x - 1) * lambda2)) := by linarith
  have hb1 : exp (-beta) < 1 := exp_lt_one_iff.mpr (by linarith)
  have hA : 0 < 1 - exp (-beta) := by linarith
  have hs : beta < beta + (E0 - 1) * lambda2 := by nlinarith
  have hC : 1 - exp (-beta) < 1 - exp (-(beta + (E0 - 1) * lambda2)) := by
    have := exp_lt_exp.mpr (neg_lt_neg hs)
    linarith
  have hnorm : 0 < psiApproxNorm beta lambda2 E0 := by
    have h1 : 1 / (1 - exp (-(beta + (E0 - 1) * lambda2))) < 1 / (1 - exp (-beta)) :=
      one_div_lt_one_div_of_lt hA hC
    exact div_pos (by linarith) hl
  rw [psiApproxCdf, if_pos ⟨hx1, hxE⟩, psiApproxPpf]
  rw [div_mul_cancel₀ _ hnorm.ne', div_mul_cancel₀ _ hl.ne']
  have h2 : 1 / (1 - exp (-beta)) -
      (1 / (1 - exp (-beta)) - 1 / (1 - exp (-(beta + (x - 1) * lambda2)))) =
      1 / (1 - exp (-(beta + (x - 1) * lambda2))) := by ring
  rw [h2]
  have h3 : 1 - 1 / (1 / (1 - exp (-(beta + (x - 1) * lambda2)))) =
      exp (-(beta + (x - 1) * lambda2)) := by
    rw [one_div_one_div]; ring
  rw [h3, Real.log_exp]
  field_simp
  ring

theorem psi_epsilon_approx_ppf_cdf_witness :
    psiApproxPpf 1 1 2 (psiApproxCdf 1 1 2 (3/2)) = 3/2 :=
  psi_epsilon_approx_ppf_cdf 1 1 2 (3/2) (by norm_num) (by norm_num) (by norm_num)
    (by norm_num) (by norm_num)

/-- theta_agsne.pdf: truncated exponential with rate lambda3*m*n on [1, E]. -/
noncomputable def thetaAgsnePdf (lambda3 E m n x : ℝ) : ℝ :=
  if 1 ≤ x ∧ x ≤ E then
    lambda3 * m * n / (exp (-(lambda3 * m * n)) - exp (-(lambda3 * m * n * E))) *
      exp (-(lambda3 * m * n * x))
  else 0

/-- theta_agsne.cdf. -/
noncomputable def thetaAgsneCdf (lambda3 E m n x : ℝ) : ℝ :=
  if 1 ≤ x ∧ x ≤ E then
    (exp (-(lambda3 * m * n)) - exp (-(lambda3 * m * n * x))) /
      (exp (-(lambda3 * m * n)) - exp (-(lambda3 * m * n * E)))
  else if x < 1 then 0 else 1

/-- theta_agsne.expected: closed-form first moment. -/
noncomputable def thetaAgsneExpected (lambda3 E m n : ℝ) : ℝ :=
  (exp (-(lambda3 * m * n)) * (lambda3 * m * n + 1) -
      exp (-(lambda3 * m * n * E)) * (lambda3 * m * n * E + 1)) /
    (lambda3 * m * n * (exp (-(lambda3 * m * n)) - exp (-(lambda3 * m * n * E))))

/-- C7: for m, n ≥ 1 with lambda3*m*n > 0 (and nondegenerate support
1 < E), theta_agsne.expected(m, n) equals the exact first moment
∫_1^E x * theta_agsne.pdf(x, m, n) dx in real arithmetic. -/
theorem theta_agsne_expected_eq_integral (lambda3 E m n : ℝ)
    (hm : 1 ≤ m) (hn : 1 ≤ n) (hk : 0 < lambda3 * m * n) (hE : 1 < E) :
    thetaAgsneExpected lambda3 E m n = ∫ x in (1:ℝ)..E, x * thetaAgsnePdf lambda3 E m n x := by
  simp only [thetaAgsneExpected]
  set k := lambda3 * m * n with hkdef
  have hD : 0 < exp (-k) - exp (-(k * E)) := by
    have h1 : -(k * E) < -k := by nlinarith
    have h2 := exp_lt_exp.mpr h1
    linarith
  have hcong : Set.EqOn (fun x => x * thetaAgsnePdf lambda3 E m n x)
      (fun x => (k / (exp (-k) - exp (-(k * E)))) * (x * exp (-(k * x)))) (Set.uIcc 1 E) := by
    intro x hx
    rw [Set.uIcc_of_le (le_of_lt hE)] at hx
    simp only [thetaAgsnePdf, ← hkdef]
    rw [if_pos ⟨hx.1, hx.2⟩]
    ring
  rw [intervalIntegral.integral_congr hcong, intervalIntegral.integral_const_mul]
  have hF : ∀ x ∈ Set.uIcc (1:ℝ) E,
      HasDerivAt (fun t => -(exp (-(k * t)) * (k * t + 1)) / k ^ 2) (x * exp (-(k * x))) x := by
    intro x _
    have hg : HasDerivAt (fun t : ℝ => -(k * t)) (-k) x := by
      simpa using ((hasDerivAt_id x).const_mul k).neg
    have h2 : HasDerivAt (fun t : ℝ => exp (-(k * t))) (exp (-(k * x)) * -k) x := hg.exp
    have h3 : HasDerivAt (fun t : ℝ => k * t + 1) k x := by
      simpa using ((hasDerivAt_id x).const_mul k).add_const 1
    have h4 := (h2.mul h3).neg.div_const (k ^ 2)
    convert h4 using 1
    field_simp
    ring
  have hcont : Continuous fun x : ℝ => x * exp (-(k * x)) := by
    continuity
  rw [intervalIntegral.integral_eq_sub_of_hasDerivAt hF (hcont.intervalIntegrable 1 E)]
  field_simp
  ring

theorem theta_agsne_expected_eq_integral_witness :
    thetaAgsneExpected 1 2 1 1 = ∫ x in (1:ℝ)..(2:ℝ), x * thetaAgsnePdf 1 2 1 1 x :=
  theta_agsne_expected_eq_integral 1 2 1 1 (by norm_num) (by norm_num) (by norm_num)
    (by norm_num)

/-- gamma_agsne.__init__ norm: sum over S_list = 1..S of
exp(-lambda1*i) * log(1/(1-exp(-beta*i))) / i. -/
noncomputable def gammaNorm (lambda1 beta : ℝ) (S : ℕ) : ℝ :=
  ∑ i in Finset.Icc 1 S, exp (-lambda1 * i) * Real.log (1 / (1 - exp (-beta * i))) / i

/-- gamma_agsne.pmf with the isinstance int guard. -/
noncomputable def gammaPmf (lambda1 beta : ℝ) (S : ℕ) (v : PyNum) : ℝ :=
  if (1 ≤ v.val ∧ v.val ≤ (S : ℝ)) ∧ v.isInt = true then
    exp (-lambda1 * v.val) * Real.log (1 / (1 - exp (-beta * v.val))) / v.val /
      gammaNorm lambda1 beta S
  else 0

/-- gamma_agsne.cdf: as in the source, every summand is divided by the
argument x (sum(np.exp(...)*np.log(...)/x)), not by the summation index. -/
noncomputable def gammaCdf (lambda1 beta : ℝ) (S : ℕ) (x : ℝ) : ℝ :=
  if 1 ≤ x ∧ x ≤ (S : ℝ) then
    (∑ i in Finset.Icc 1 (⌊x⌋.toNat),
      exp (-lambda1 * i) * Real.log (1 / (1 - exp (-beta * i))) / x) /
      gammaNorm lambda1 beta S
  else if x < 1 then 0 else 1

/-- C3 (code bug): at lambda1 = 0, beta = log 2, S = 2 the source's
gamma_agsne.cdf(2) differs from pmf(1) + pmf(2) (which is 1 = cdf(S)
according to the claim), because cdf divides each summand by the argument
x instead of the index i. -/
theorem gamma_agsne_cdf_not_cumulative :
    gammaPmf 0 (Real.log 2) 2 (PyNum.pyint 1) + gammaPmf 0 (Real.log 2) 2 (PyNum.pyint 2) = 1 ∧
    gammaCdf 0 (Real.log 2) 2 2 ≠
      gammaPmf 0 (Real.log 2) 2 (PyNum.pyint 1) + gammaPmf 0 (Real.log 2) 2 (PyNum.pyint 2) := by
  have h2 : (0:ℝ) < 2 := by norm_num
  have l4 : Real.log 4 = 2 * Real.log 2 := by
    rw [show (4:ℝ) = 2 ^ (2:ℕ) by norm_num, Real.log_pow]
    push_cast
    ring
  have e1 : exp (-Real.log 2 * 1) = 1/2 := by
    rw [mul_one, Real.exp_neg, Real.exp_log h2]
    norm_num
  have e2 : exp (-Real.log 2 * 2) = 1/4 := by
    rw [show -Real.log 2 * 2 = -Real.log 4 by rw [l4]; ring, Real.exp_neg,
      Real.exp_log (by norm_num : (0:ℝ) < 4)]
    norm_num
  have hnorm : gammaNorm 0 (Real.log 2) 2 = Real.log 2 + Real.log (4/3) / 2 := by
    rw [gammaNorm, Finset.sum_Icc_succ_top (by omega : (1:ℕ) ≤ 2), Finset.Icc_self,
      Finset.sum_singleton]
    push_cast
    rw [e1, e2]
    norm_num
  have hlog2 := Real.log_pos (by norm_num : (1:ℝ) < 2)
  have hlog43 := Real.log_pos (by norm_num : (1:ℝ) < 4/3)
  have hp1 : gammaPmf 0 (Real.log 2) 2 (PyNum.pyint 1) =
      Real.log 2 / gammaNorm 0 (Real.log 2) 2 := by
    rw [gammaPmf]
    split_ifs with h
    · show exp (-0 * PyNum.val (PyNum.pyint 1)) *
        Real.log (1 / (1 - exp (-Real.log 2 * PyNum.val (PyNum.pyint 1)))) /
        PyNum.val (PyNum.pyint 1) / gammaNorm 0 (Real.log 2) 2 = _
      have hval : PyNum.val (PyNum.pyint 1) = 1 := by simp [PyNum.val]
      rw [hval, e1]
      norm_num
    · exact absurd ⟨⟨by norm_num [PyNum.val], by norm_num [PyNum.val]⟩, rfl⟩ h
  have hp2 : gammaPmf 0 (Real.log 2) 2 (PyNum.pyint 2) =
      Real.log (4/3) / 2 / gammaNorm 0 (Real.log 2) 2 := by
    rw [gammaPmf]
    split_ifs with h
    · show exp (-0 * PyNum.val (PyNum.pyint 2)) *
        Real.log (1 / (1 - exp (-Real.log 2 * PyNum.val (PyNum.pyint 2)))) /
        PyNum.val (PyNum.pyint 2) / gammaNorm 0 (Real.log 2) 2 = _
      have hval : PyNum.val (PyNum.pyint 2) = 2 := by simp [PyNum.val]
      rw [hval, e2]
      norm_num
    · exact absurd ⟨⟨by norm_num [PyNum.val], by norm_num [PyNum.val]⟩, rfl⟩ h
  have hcdf : gammaCdf 0 (Real.log 2) 2 2 =
      (Real.log 2 / 2 + Real.log (4/3) / 2) / gammaNorm 0 (Real.log 2) 2 := by
    rw [gammaCdf, if_pos (by norm_num : (1:ℝ) ≤ 2 ∧ (2:ℝ) ≤ ((2:ℕ):ℝ))]
    have hfl : (⌊(2:ℝ)⌋).toNat = 2 := by
      rw [show (⌊(2:ℝ)⌋) = 2 by norm_num]
      rfl
    rw [hfl, Finset.sum_Icc_succ_top (by omega : (1:ℕ) ≤ 2), Finset.Icc_self,
      Finset.sum_singleton]
    push_cast
    rw [e1, e2]
    norm_num
  have hnpos : (0:ℝ) < Real.log 2 + Real.log (4/3) / 2 := by linarith
  constructor
  · rw [hp1, hp2, hnorm]
    field_simp
  · rw [hcdf, hp1, hp2, hnorm]
    intro hEq
    field_simp at hEq

/-- sad_agsne.__init__ norm: sum over 1..N of
exp(-lambda1-beta*i) / i / (1-exp(-lambda1-beta*i)). -/
noncomputable def sadNorm (lambda1 beta : ℝ) (N : ℕ) : ℝ :=
  ∑ i in Finset.Icc 1 N, exp (-lambda1 - beta * i) / i / (1 - exp (-lambda1 - beta * i))

/-- sad_agsne.pmf with the isinstance int guard. -/
noncomputable def sadPmf (lambda1 beta : ℝ) (N : ℕ) (v : PyNum) : ℝ :=
  if (1 ≤ v.val ∧ v.val ≤ (N : ℝ)) ∧ v.isInt = true then
    exp (-lambda1 - beta * v.val) / v.val / (1 - exp (-lambda1 - beta * v.val)) /
      sadNorm lambda1 beta N
  else 0

/-- sad_agsne.logpmf: the source prints an error message and returns None
off support or for a non-int; that branch is modelled as none. -/
noncomputable def sadLogpmf (lambda1 beta : ℝ) (N : ℕ) (v : PyNum) : Option ℝ :=
  if (1 ≤ v.val ∧ v.val ≤ (N : ℝ)) ∧ v.isInt = true then
    some (-lambda1 - beta * v.val - Real.log v.val -
      Real.log (1 - exp (-lambda1 - beta * v.val)) - Real.log (sadNorm lambda1 beta N))
  else none

/-- sad_agsne.cdf: cumulative sum of the pmf terms over
arange(a, floor(x) + 1) = 1..floor(x), divided by norm, with the
same support branches as the source. -/
noncomputable def sadCdf (lambda1 beta : ℝ) (N : ℕ) (x : ℝ) : ℝ :=
  if 1 ≤ x ∧ x ≤ (N : ℝ) then
    (∑ i in Finset.Icc 1 (⌊x⌋.toNat),
      exp (-lambda1 - beta * i) / i / (1 - exp (-lambda1 - beta * i))) /
      sadNorm lambda1 beta N
  else if x < 1 then 0 else 1

theorem sadTerm_pos (lambda1 beta : ℝ) (hb : 0 ≤ beta) (hlb : 0 < lambda1 + beta)
    {i : ℕ} (hi : 1 ≤ i) :
    0 < exp (-lambda1 - beta * i) / i / (1 - exp (-lambda1 - beta * i)) := by
  have hi' : (1:ℝ) ≤ i := by exact_mod_cast hi
  have harg : -lambda1 - beta * i < 0 := by
    nlinarith [mul_le_mul_of_nonneg_left hi' hb]
  have hlt : exp (-lambda1 - beta * i) < 1 := exp_lt_one_iff.mpr harg
  have hipos : (0:ℝ) < i := by linarith
  exact div_pos (div_pos (exp_pos _) hipos) (by linarith)

theorem sadNorm_pos (lambda1 beta : ℝ) (N : ℕ) (hb : 0 ≤ beta) (hlb : 0 < lambda1 + beta)
    (hN : 1 ≤ N) : 0 < sadNorm lambda1 beta N := by
  rw [sadNorm]
  apply Finset.sum_pos
  · intro i hi
    exact sadTerm_pos lambda1 beta hb hlb (Finset.mem_Icc.mp hi).1
  · exact ⟨1, Finset.mem_Icc.mpr ⟨le_refl 1, hN⟩⟩

/-- C8: sad_agsne.logpmf takes its error branch (modelled as none) exactly
when x is outside [1, N] or not a Python int, and on support it returns
the logarithm of sad_agsne.pmf(x). -/
theorem sad_agsne_logpmf_spec (lambda1 beta : ℝ) (N : ℕ)
    (hb : 0 ≤ beta) (hlb : 0 < lambda1 + beta) (hN : 1 ≤ N) :
    (∀ v : PyNum, sadLogpmf lambda1 beta N v = none ↔
      ¬((1 ≤ v.val ∧ v.val ≤ (N : ℝ)) ∧ v.isInt = true)) ∧
    ∀ j : ℤ, 1 ≤ j → (j : ℝ) ≤ (N : ℝ) →
      sadLogpmf lambda1 beta N (PyNum.pyint j) =
        some (Real.log (sadPmf lambda1 beta N (PyNum.pyint j))) := by
  constructor
  · intro v
    rw [sadLogpmf]
    split_ifs with h
    · simp [h]
    · simp [h]
  · intro j hj1 hjN
    have hval : PyNum.val (PyNum.pyint j) = (j : ℝ) := rfl
    have hj1' : (1:ℝ) ≤ (j:ℝ) := by exact_mod_cast hj1
    have hc : ((1:ℝ) ≤ PyNum.val (PyNum.pyint j) ∧ PyNum.val (PyNum.pyint j) ≤ (N:ℝ)) ∧
        PyNum.isInt (PyNum.pyint j) = true :=
      ⟨⟨by rw [hval]; exact hj1', by rw [hval]; exact hjN⟩, rfl⟩
    rw [sadLogpmf, if_pos hc, sadPmf, if_pos hc, hval]
    have harg : 0 < lambda1 + beta * (j:ℝ) := by
      nlinarith [mul_le_mul_of_nonneg_left hj1' hb]
    have hlt : exp (-lambda1 - beta * (j:ℝ)) < 1 := exp_lt_one_iff.mpr (by linarith)
    have hjpos : (0:ℝ) < (j:ℝ) := by linarith
    have hcpos : 0 < 1 - exp (-lambda1 - beta * (j:ℝ)) := by linarith
    have hnorm := sadNorm_pos lambda1 beta N hb hlb hN
    refine congrArg some ?_
    rw [Real.log_div (div_pos (div_pos (exp_pos _) hjpos) hcpos).ne' hnorm.ne',
      Real.log_div (div_pos (exp_pos _) hjpos).ne' hcpos.ne',
      Real.log_div (exp_pos _).ne' hjpos.ne', Real.log_exp]

theorem sad_agsne_logpmf_spec_witness :
    (∀ v : PyNum, sadLogpmf 1 0 1 v = none ↔
      ¬((1 ≤ v.val ∧ v.val ≤ ((1:ℕ) : ℝ)) ∧ v.isInt = true)) ∧
    ∀ j : ℤ, 1 ≤ j → (j : ℝ) ≤ ((1:ℕ) : ℝ) →
      sadLogpmf 1 0 1 (PyNum.pyint j) =
        some (Real.log (sadPmf 1 0 1 (PyNum.pyint j))) :=
  sad_agsne_logpmf_spec 1 0 1 (by norm_num) (by norm_num) (by norm_num)

/-- C10: gamma_agsne.pmf, sad_agsne.pmf and sad_agsne.logpmf treat every
argument that is not a Python int (floats of any value, numpy integer
scalars as modelled) as off-support, because the guard tests
isinstance(x, int): pmf returns 0 and logpmf takes its error branch. -/
theorem non_int_inputs_off_support (lambda1 beta lambda1s betas : ℝ) (S N : ℕ)
    (r : ℝ) (n : ℤ) :
    gammaPmf lambda1 beta S (PyNum.pyfloat r) = 0 ∧
    gammaPmf lambda1 beta S (PyNum.npint n) = 0 ∧
    sadPmf lambda1s betas N (PyNum.pyfloat r) = 0 ∧
    sadPmf lambda1s betas N (PyNum.npint n) = 0 ∧
    sadLogpmf lambda1s betas N (PyNum.pyfloat r) = none ∧
    sadLogpmf lambda1s betas N (PyNum.npint n) = none := by
  refine ⟨?_, ?_, ?_, ?_, ?_, ?_⟩ <;>
    simp [gammaPmf, sadPmf, sadLogpmf, PyNum.isInt]

/-- Inner while loop of sad_agsne.rvs: given the current cumulative mass
acc and current value i, emit i once for each leading random number r with
r ≤ acc (the source's cdf_cum >= rand_list[j]); return the emitted values
and the remaining random numbers. -/
noncomputable def emitAt (acc : ℝ) (i : ℕ) : List ℝ → List ℕ × List ℝ
  | [] => ([], [])
  | r :: rs =>
    if r ≤ acc then ((i :: (emitAt acc i rs).1), (emitAt acc i rs).2)
    else ([], r :: rs)

/-- Outer while loop of sad_agsne.rvs: i runs from 1 while i ≤ N + 1, so
fuel = N + 1 iterations; each iteration adds pmf(i) to the cumulative
mass, emits, and returns as soon as every random number is consumed;
exhausting the loop with numbers remaining is the source's implicit
None return. -/
noncomputable def sweep (pmf : ℕ → ℝ) : ℕ → ℕ → ℝ → List ℝ → Option (List ℕ)
  | 0, _, _, _ => none
  | fuel + 1, i, acc, rands =>
    if (emitAt (acc + pmf i) i rands).2 = [] then some (emitAt (acc + pmf i) i rands).1
    else
      match sweep pmf fuel (i + 1) (acc + pmf i) (emitAt (acc + pmf i) i rands).2 with
      | some out2 => some ((emitAt (acc + pmf i) i rands).1 ++ out2)
      | none => none

/-- sad_agsne.rvs with the scipy uniform draws injected as the list
rands (one draw per requested sample): sort them ascending and run the
single forward sweep.  For size = 0 the source raises IndexError at the
first inner-loop test; that is modelled as none. -/
noncomputable def sadRvs (lambda1 beta : ℝ) (N : ℕ) (rands : List ℝ) : Option (List ℕ) :=
  match rands with
  | [] => none
  | r :: rs =>
    sweep (fun i => sadPmf lambda1 beta N (PyNum.pyint i)) (N + 1) 1 0
      (List.insertionSort (· ≤ ·) (r :: rs))

theorem emitAt_length (acc : ℝ) (i : ℕ) (rs : List ℝ) :
    (emitAt acc i rs).1.length + (emitAt acc i rs).2.length = rs.length := by
  induction rs with
  | nil => simp [emitAt]
  | cons r rs ih =>
    rw [emitAt]
    split_ifs with h
    · simp only [List.length_cons]
      omega
    · simp

theorem emitAt_fst_eq (acc : ℝ) (i : ℕ) (rs : List ℝ) :
    ∀ y ∈ (emitAt acc i rs).1, y = i := by
  induction rs with
  | nil => simp [emitAt]
  | cons r rs ih =>
    rw [emitAt]
    split_ifs with h
    · intro y hy
      rcases List.mem_cons.mp hy with h1 | h2
      · exact h1
      · exact ih y h2
    · simp

theorem emitAt_snd_sublist (acc : ℝ) (i : ℕ) (rs : List ℝ) :
    (emitAt acc i rs).2.Sublist rs := by
  induction rs with
  | nil => simp [emitAt]
  | cons r rs ih =>
    rw [emitAt]
    split_ifs with h
    · exact ih.cons r
    · exact List.Sublist.refl _

theorem emitAt_snd_gt (acc : ℝ) (i : ℕ) (rs : List ℝ) (hs : rs.Sorted (· ≤ ·)) :
    ∀ t ∈ (emitAt acc i rs).2, acc < t := by
  induction rs with
  | nil => simp [emitAt]
  | cons r rs ih =>
    rw [List.sorted_cons] at hs
    rw [emitAt]
    split_ifs with h
    · exact ih hs.2
    · intro t ht
      rcases List.mem_cons.mp ht with h1 | h2
      · rw [h1]
        exact lt_of_not_le h
      · exact lt_of_lt_of_le (lt_of_not_le h) (hs.1 t h2)

theorem sorted_of_all_eq (l : List ℕ) (i : ℕ) (h : ∀ y ∈ l, y = i) :
    l.Sorted (· ≤ ·) := by
  induction l with
  | nil => simp
  | cons a l ih =>
    rw [List.sorted_cons]
    constructor
    · intro b hb
      rw [h a (List.mem_cons_self a l), h b (List.mem_cons.mpr (Or.inr hb))]
    · exact ih fun y hy => h y (List.mem_cons.mpr (Or.inr hy))

/-- Correctness of the forward sweep: if the random numbers are sorted,
at least the current cumulative mass, and strictly below the total mass
that the remaining fuel can accumulate, the sweep consumes all of them
and emits a sorted list of values in [i0, i0 + fuel). -/
theorem sweep_spec (pmf : ℕ → ℝ) :
    ∀ (fuel i0 : ℕ) (acc : ℝ) (rs : List ℝ), rs ≠ [] → rs.Sorted (· ≤ ·) →
    (∀ r ∈ rs, acc ≤ r ∧ r < acc + ∑ k in Finset.range fuel, pmf (i0 + k)) →
    ∃ out, sweep pmf fuel i0 acc rs = some out ∧ out.length = rs.length ∧
      (∀ y ∈ out, i0 ≤ y ∧ y < i0 + fuel) ∧ out.Sorted (· ≤ ·) := by
  intro fuel
  induction fuel with
  | zero =>
    intro i0 acc rs hne hs hb
    rcases rs with _ | ⟨r, rs⟩
    · exact absurd rfl hne
    · have h1 := hb r (List.mem_cons_self r rs)
      rw [Finset.range_zero, Finset.sum_empty, add_zero] at h1
      exact absurd h1.2 (not_lt.mpr h1.1)
  | succ fuel ih =>
    intro i0 acc rs hne hs hb
    have hlen := emitAt_length (acc + pmf i0) i0 rs
    have hfst := emitAt_fst_eq (acc + pmf i0) i0 rs
    have hsub := emitAt_snd_sublist (acc + pmf i0) i0 rs
    have hgt := emitAt_snd_gt (acc + pmf i0) i0 rs hs
    cases hp2 : (emitAt (acc + pmf i0) i0 rs).2 with
    | nil =>
      refine ⟨(emitAt (acc + pmf i0) i0 rs).1, ?_, ?_, ?_, ?_⟩
      · rw [sweep, if_pos hp2]
      · rw [hp2] at hlen
        simpa using hlen
      · intro y hy
        rw [hfst y hy]
        omega
      · exact sorted_of_all_eq _ i0 hfst
    | cons r2 rs2 =>
      have hne2 : r2 :: rs2 ≠ [] := by simp
      have hs2 : (r2 :: rs2).Sorted (· ≤ ·) := by
        rw [← hp2]
        exact List.Pairwise.sublist hsub hs
      have hb2 : ∀ t ∈ r2 :: rs2, acc + pmf i0 ≤ t ∧
          t < acc + pmf i0 + ∑ k in Finset.range fuel, pmf (i0 + 1 + k) := by
        intro t ht
        rw [← hp2] at ht
        have htm : t ∈ rs := hsub.subset ht
        have h1 := hgt t ht
        have h2 := (hb t htm).2
        rw [Finset.sum_range_succ'] at h2
        have hsum : ∑ k in Finset.range fuel, pmf (i0 + (k + 1)) =
            ∑ k in Finset.range fuel, pmf (i0 + 1 + k) :=
          Finset.sum_congr rfl fun k _ => by rw [show i0 + (k + 1) = i0 + 1 + k by omega]
        rw [hsum, add_zero] at h2
        exact ⟨le_of_lt h1, by linarith⟩
      obtain ⟨out2, hsw2, hlen2, hmem2, hsort2⟩ :=
        ih (i0 + 1) (acc + pmf i0) (r2 :: rs2) hne2 hs2 hb2
      refine ⟨(emitAt (acc + pmf i0) i0 rs).1 ++ out2, ?_, ?_, ?_, ?_⟩
      · rw [sweep, if_neg (by rw [hp2]; simp), hp2, hsw2]
      · rw [List.length_append, hlen2]
        rw [hp2] at hlen
        simp only [List.length_cons] at hlen ⊢
        omega
      · intro y hy
        rcases List.mem_append.mp hy with h1 | h2
        · rw [hfst y h1]
          omega
        · have := hmem2 y h2
          omega
      · rw [List.Sorted, List.pairwise_append]
        refine ⟨sorted_of_all_eq _ i0 hfst, hsort2, ?_⟩
        intro a ha b hb2
        rw [hfst a ha]
        have := (hmem2 b hb2).1
        omega

/-- Extra fuel does not change a successful sweep: the source loop runs
to i = N + 1 but returns as soon as the numbers are consumed. -/
theorem sweep_mono (pmf : ℕ → ℝ) :
    ∀ (fuel i : ℕ) (acc : ℝ) (rs : List ℝ) (out : List ℕ),
      sweep pmf fuel i acc rs = some out → sweep pmf (fuel + 1) i acc rs = some out := by
  intro fuel
  induction fuel with
  | zero =>
    intro i acc rs out h
    rw [sweep] at h
    exact absurd h (by simp)
  | succ fuel ih =>
    intro i acc rs out h
    rw [sweep] at h ⊢
    split_ifs at h ⊢ with hcond
    · exact h
    · cases hsw : sweep pmf fuel (i + 1) (acc + pmf i) (emitAt (acc + pmf i) i rs).2 with
      | none =>
        rw [hsw] at h
        exact absurd h (by simp)
      | some out2 =>
        rw [hsw] at h
        rw [ih (i + 1) (acc + pmf i) (emitAt (acc + pmf i) i rs).2 out2 hsw]
        exact h

/-- On-support pmf values of sad_agsne at Python ints sum to one over
1..N in exact arithmetic. -/
theorem sadPmf_sum_one (lambda1 beta : ℝ) (N : ℕ)
    (hb : 0 ≤ beta) (hlb : 0 < lambda1 + beta) (hN : 1 ≤ N) :
    ∑ k in Finset.range N, sadPmf lambda1 beta N (PyNum.pyint (1 + k : ℕ)) = 1 := by
  have hnorm := sadNorm_pos lambda1 beta N hb hlb hN
  have hterm : ∀ k ∈ Finset.range N, sadPmf lambda1 beta N (PyNum.pyint (1 + k : ℕ)) =
      exp (-lambda1 - beta * ((1 + k : ℕ) : ℝ)) / ((1 + k : ℕ) : ℝ) /
        (1 - exp (-lambda1 - beta * ((1 + k : ℕ) : ℝ))) / sadNorm lambda1 beta N := by
    intro k hk
    have hkN := Finset.mem_range.mp hk
    have hval : PyNum.val (PyNum.pyint (1 + k : ℕ)) = ((1 + k : ℕ) : ℝ) := by
      simp [PyNum.val]
    rw [sadPmf, if_pos, hval]
    refine ⟨⟨?_, ?_⟩, rfl⟩
    · rw [hval]
      push_cast
      linarith [Nat.cast_nonneg (α := ℝ) k]
    · rw [hval]
      have : 1 + k ≤ N := by omega
      exact_mod_cast this
  rw [Finset.sum_congr rfl hterm, ← Finset.sum_div, div_eq_one_iff_eq hnorm.ne']
  rw [sadNorm, ← Nat.Ico_succ_right, Finset.sum_Ico_eq_sum_range]
  exact Finset.sum_congr rfl fun k _ => by push_cast; norm_num

/-- C6: for every requested size ≥ 1 (uniform draws in [0,1), injected as
rands), sad_agsne.rvs returns exactly size values, each an integer in
[1, N], sorted ascending. -/
theorem sad_agsne_rvs_spec (lambda1 beta : ℝ) (N : ℕ) (rands : List ℝ)
    (hN : 1 ≤ N) (hb : 0 ≤ beta) (hlb : 0 < lambda1 + beta)
    (hne : rands ≠ []) (hr : ∀ r ∈ rands, 0 ≤ r ∧ r < 1) :
    ∃ out, sadRvs lambda1 beta N rands = some out ∧
      out.length = rands.length ∧ (∀ y ∈ out, 1 ≤ y ∧ y ≤ N) ∧ out.Sorted (· ≤ ·) := by
  rcases rands with _ | ⟨r, rs⟩
  · exact absurd rfl hne
  have hperm : (List.insertionSort (· ≤ ·) (r :: rs)).Perm (r :: rs) :=
    List.perm_insertionSort _ _
  have hsort : (List.insertionSort (· ≤ ·) (r :: rs)).Sorted (· ≤ ·) :=
    List.sorted_insertionSort _ _
  have hlen : (List.insertionSort (· ≤ ·) (r :: rs)).length = (r :: rs).length :=
    hperm.length_eq
  have hlne : List.insertionSort (· ≤ ·) (r :: rs) ≠ [] := by
    intro h
    rw [h] at hlen
    simp at hlen
  have hsum : ∑ k in Finset.range N,
      (fun i => sadPmf lambda1 beta N (PyNum.pyint i)) (1 + k) = 1 := by
    simpa using sadPmf_sum_one lambda1 beta N hb hlb hN
  have hbound : ∀ t ∈ List.insertionSort (· ≤ ·) (r :: rs), (0:ℝ) ≤ t ∧
      t < 0 + ∑ k in Finset.range N,
        (fun i => sadPmf lambda1 beta N (PyNum.pyint i)) (1 + k) := by
    intro t ht
    have := hr t (hperm.mem_iff.mp ht)
    rw [hsum, zero_add]
    exact this
  obtain ⟨out, hsw, hlen2, hmem, hsorted⟩ :=
    sweep_spec (fun i => sadPmf lambda1 beta N (PyNum.pyint i)) N 1 0
      (List.insertionSort (· ≤ ·) (r :: rs)) hlne hsort hbound
  have hsw2 := sweep_mono (fun i => sadPmf lambda1 beta N (PyNum.pyint i)) N 1 0
    (List.insertionSort (· ≤ ·) (r :: rs)) out hsw
  refine ⟨out, ?_, ?_, ?_, hsorted⟩
  · rw [sadRvs]
    exact hsw2
  · rw [hlen2, hlen]
  · intro y hy
    have := hmem y hy
    omega

theorem sad_agsne_rvs_spec_witness :
    ∃ out, sadRvs 1 0 1 [1/2] = some out ∧
      out.length = ([(1:ℝ)/2]).length ∧ (∀ y ∈ out, 1 ≤ y ∧ y ≤ 1) ∧
      out.Sorted (· ≤ ·) :=
  sad_agsne_rvs_spec 1 0 1 [1/2] (by norm_num) (by norm_num) (by norm_num)
    (by simp) (by intro t ht; rw [List.mem_singleton] at ht; rw [ht]; norm_num)

/-- psi_epsilon / theta_epsilon sigma = beta + (E0 - 1) * lambda2. -/
noncomputable def psiEpsilonSigma (beta lambda2 E0 : ℝ) : ℝ := beta + (E0 - 1) * lambda2

/-- psi_epsilon.__init__ norm_factor. -/
noncomputable def psiEpsilonNormFactor (beta lambda2 E0 : ℝ) (N0 : ℕ) : ℝ :=
  lambda2 / ((exp (-beta) - exp (-beta * (N0 + 1))) / (1 - exp (-beta)) -
    (exp (-psiEpsilonSigma beta lambda2 E0) -
      exp (-psiEpsilonSigma beta lambda2 E0 * (N0 + 1))) /
      (1 - exp (-psiEpsilonSigma beta lambda2 E0)))

/-- psi_epsilon.pdf (the modified form of eq. 7.24, with its support
guard). -/
noncomputable def psiEpsilonPdf (beta lambda2 E0 : ℝ) (N0 : ℕ) (x : ℝ) : ℝ :=
  if 1 ≤ x ∧ x ≤ E0 then
    psiEpsilonNormFactor beta lambda2 E0 N0 * exp (-(beta + (x - 1) * lambda2)) *
      (1 - (N0 + 1) * exp (-(beta + (x - 1) * lambda2)) ^ N0 +
        N0 * exp (-(beta + (x - 1) * lambda2)) ^ (N0 + 1)) /
      (1 - exp (-(beta + (x - 1) * lambda2))) ^ 2
  else 0

/-- psi_epsilon.cdf: the source has no support guard here; the external
correction integral get_integral_for_psi_cdf enters as the parameter I. -/
noncomputable def psiEpsilonCdf (I : ℝ → ℝ → ℝ → ℕ → ℝ) (beta lambda2 E0 : ℝ) (N0 : ℕ)
    (x : ℝ) : ℝ :=
  psiEpsilonNormFactor beta lambda2 E0 N0 / lambda2 *
    (1 / (1 - exp (-beta)) - 1 / (1 - exp (-(beta + (x - 1) * lambda2))) + I x beta lambda2 N0)

/-- theta_epsilon.pdf with lambda1 = beta - lambda2: the source has no
support guard here. -/
noncomputable def thetaEpsilonPdf (beta lambda2 E0 x n : ℝ) : ℝ :=
  lambda2 * n * exp (-((beta - lambda2) + lambda2 * x) * n) /
    (exp (-beta * n) - exp (-psiEpsilonSigma beta lambda2 E0 * n))

/-- psi_agsne.__init__ norm (lambda2 = beta - lambda3). -/
noncomputable def psiAgsneNorm (lambda1 beta lambda3 : ℝ) (S : ℕ) (E : ℝ) : ℝ :=
  1 / lambda3 * ∑ m in Finset.Icc 1 S, exp (-lambda1 * m) *
    (1 / (1 - exp (-beta * m)) - 1 / (1 - exp (-((beta - lambda3) + E * lambda3) * m)))

/-- psi_agsne.pdf: the summation bound is the free module-level name S
(the source writes range(1, S + 1), not self.S), passed here as Sglob;
each summand's denominator is (1 - exp_neg_gamma ** m) ** 2, without the
exp(-lambda1) factor that appears in the numerator base. -/
noncomputable def psiAgsnePdf (lambda1 beta lambda3 : ℝ) (S : ℕ) (E : ℝ) (Sglob : ℕ)
    (x : ℝ) : ℝ :=
  if 1 ≤ x ∧ x ≤ E then
    (∑ m in Finset.Icc 1 Sglob,
      m * (exp (-((beta - lambda3) + x * lambda3)) * exp (-lambda1)) ^ m /
        (1 - exp (-((beta - lambda3) + x * lambda3)) ^ m) ^ 2) /
      psiAgsneNorm lambda1 beta lambda3 S E
  else 0

/-- psi_agsne.cdf. -/
noncomputable def psiAgsneCdf (lambda1 beta lambda3 : ℝ) (S : ℕ) (E : ℝ) (x : ℝ) : ℝ :=
  if 1 ≤ x ∧ x ≤ E then
    (1 / lambda3 * ∑ m in Finset.Icc 1 S, exp (-lambda1 * m) *
      (1 / (1 - exp (-beta * m)) - 1 / (1 - exp (-((beta - lambda3) + x * lambda3) * m)))) /
      psiAgsneNorm lambda1 beta lambda3 S E
  else if x < 1 then 0 else 1

/-- The formula claim C2 states for psi_agsne.pdf, following the spec's
words: (1/norm) times the sum over m = 1..S (the owning instance's S) of
m*q^m/(1-q^m)^2 with q = exp(-(lambda2+x*lambda3))*exp(-lambda1). -/
noncomputable def psiAgsnePdfClaim (lambda1 beta lambda3 : ℝ) (S : ℕ) (E : ℝ) (x : ℝ) : ℝ :=
  1 / psiAgsneNorm lambda1 beta lambda3 S E * ∑ m in Finset.Icc 1 S,
    m * (exp (-((beta - lambda3) + x * lambda3)) * exp (-lambda1)) ^ m /
      (1 - (exp (-((beta - lambda3) + x * lambda3)) * exp (-lambda1)) ^ m) ^ 2

/-- C2 counterexample: at pars (lambda1, beta, lambda3) = (1, 2, 1),
statvar S = 1, E = 2, global S = 1 (equal to the instance's S, the
reading most favourable to the claim) and x = 1, the source's pdf
differs from the claimed formula: the denominator of the summand uses
exp_neg_gamma ** m, not q ** m. -/
theorem psi_agsne_pdf_claim_counterexample :
    psiAgsnePdf 1 2 1 1 2 1 1 ≠ psiAgsnePdfClaim 1 2 1 1 2 1 := by
  have e23 : exp (-(2:ℝ)) * exp (-(1:ℝ)) = exp (-3) := by
    rw [← Real.exp_add]
    norm_num
  have h2lt : exp (-(2:ℝ)) < 1 := exp_lt_one_iff.mpr (by norm_num)
  have h3lt : exp (-(3:ℝ)) < 1 := exp_lt_one_iff.mpr (by norm_num)
  have h32 : exp (-(3:ℝ)) < exp (-(2:ℝ)) := exp_lt_exp.mpr (by norm_num)
  have hd2 : 0 < 1 - exp (-(2:ℝ)) := by linarith
  have hd3 : 0 < 1 - exp (-(3:ℝ)) := by linarith
  have hdlt : 1 - exp (-(2:ℝ)) < 1 - exp (-(3:ℝ)) := by linarith
  have hnormval : psiAgsneNorm 1 2 1 1 2 =
      exp (-1) * (1 / (1 - exp (-2)) - 1 / (1 - exp (-3))) := by
    rw [psiAgsneNorm, Finset.Icc_self, Finset.sum_singleton]
    push_cast
    norm_num
  have hnormpos : 0 < psiAgsneNorm 1 2 1 1 2 := by
    rw [hnormval]
    have h1 := one_div_lt_one_div_of_lt hd2 hdlt
    exact mul_pos (exp_pos _) (by linarith)
  have hpdfval : psiAgsnePdf 1 2 1 1 2 1 1 =
      exp (-3) / (1 - exp (-2)) ^ 2 / psiAgsneNorm 1 2 1 1 2 := by
    rw [psiAgsnePdf, if_pos (by norm_num : (1:ℝ) ≤ 1 ∧ (1:ℝ) ≤ 2), Finset.Icc_self,
      Finset.sum_singleton]
    push_cast
    norm_num [e23]
  have hclaimval : psiAgsnePdfClaim 1 2 1 1 2 1 =
      1 / psiAgsneNorm 1 2 1 1 2 * (exp (-3) / (1 - exp (-3)) ^ 2) := by
    rw [psiAgsnePdfClaim, Finset.Icc_self, Finset.sum_singleton]
    push_cast
    norm_num [e23]
  rw [hpdfval, hclaimval, one_div_mul_eq_div]
  have hBA : exp (-(3:ℝ)) / (1 - exp (-3)) ^ 2 < exp (-3) / (1 - exp (-2)) ^ 2 :=
    div_lt_div_of_pos_left (exp_pos _) (pow_pos hd2 2)
      (by nlinarith)
  have hstrict : exp (-(3:ℝ)) / (1 - exp (-3)) ^ 2 / psiAgsneNorm 1 2 1 1 2 <
      exp (-3) / (1 - exp (-2)) ^ 2 / psiAgsneNorm 1 2 1 1 2 :=
    div_lt_div_of_pos_right hBA hnormpos
  exact ne_of_gt hstrict

/-- C2 (amended): for 1 ≤ x ≤ E, psi_agsne.pdf(x) equals (1/norm) times
the sum over m = 1..S_glob — the free module-level name S, not self.S —
of m*q^m/(1-(q*exp(lambda1))^m)^2, with
q = exp(-(lambda2+x*lambda3))*exp(-lambda1). -/
theorem psi_agsne_pdf_amended (lambda1 beta lambda3 : ℝ) (S : ℕ) (E : ℝ) (Sglob : ℕ)
    (x : ℝ) (hx1 : 1 ≤ x) (hxE : x ≤ E) :
    psiAgsnePdf lambda1 beta lambda3 S E Sglob x =
      1 / psiAgsneNorm lambda1 beta lambda3 S E * ∑ m in Finset.Icc 1 Sglob,
        m * (exp (-((beta - lambda3) + x * lambda3)) * exp (-lambda1)) ^ m /
          (1 - (exp (-((beta - lambda3) + x * lambda3)) * exp (-lambda1) * exp lambda1) ^ m) ^ 2 := by
  rw [psiAgsnePdf, if_pos ⟨hx1, hxE⟩, one_div_mul_eq_div]
  congr 1
  refine Finset.sum_congr rfl fun m _ => ?_
  have hq : exp (-((beta - lambda3) + x * lambda3)) * exp (-lambda1) * exp lambda1 =
      exp (-((beta - lambda3) + x * lambda3)) := by
    rw [mul_assoc, ← Real.exp_add, show -lambda1 + lambda1 = 0 by ring, Real.exp_zero, mul_one]
  rw [hq]

theorem psi_agsne_pdf_amended_witness :
    psiAgsnePdf 1 2 1 1 2 1 1 =
      1 / psiAgsneNorm 1 2 1 1 2 * ∑ m in Finset.Icc (1:ℕ) 1,
        (m : ℝ) * (exp (-((2 - 1) + 1 * 1)) * exp (-1)) ^ m /
          (1 - (exp (-((2 - 1) + 1 * 1)) * exp (-1) * exp 1) ^ m) ^ 2 :=
  psi_agsne_pdf_amended 1 2 1 1 2 1 1 (by norm_num) (by norm_num)

/-- C5 counterexample: theta_epsilon.pdf carries no support guard; with
solver outputs beta = 1, lambda2 = 1 and E0 = 2, the pdf at x = 0 < 1
with abundance n = 1 is not 0. -/
theorem theta_epsilon_pdf_below_support_ne_zero : thetaEpsilonPdf 1 1 2 0 1 ≠ 0 := by
  rw [thetaEpsilonPdf, psiEpsilonSigma]
  have hlt : exp (-((1:ℝ) + (2 - 1) * 1) * 1) < exp (-(1:ℝ) * 1) :=
    exp_lt_exp.mpr (by norm_num)
  have hpos : 0 < exp (-(1:ℝ) * 1) - exp (-((1:ℝ) + (2 - 1) * 1) * 1) := by linarith
  exact ne_of_gt (div_pos (by positivity) hpos)

/-- C5 (amended): the pdf/pmf/cdf methods that carry an explicit support
guard (psi_epsilon.pdf, psi_epsilon_approx.pdf/cdf, gamma_agsne.pmf/cdf,
sad_agsne.pmf/cdf, psi_agsne.pdf/cdf, theta_agsne.pdf/cdf) return
exactly 0 for inputs below a = 1, but theta_epsilon.pdf (like
psi_epsilon.cdf) has no guard: below the support it evaluates its
closed-form expression, strictly positive whenever lambda2 > 0, E0 > 1
and n ≥ 1. -/
theorem support_zero_amended (beta lambda2 E0 lambda1 beta2 lambda3 : ℝ)
    (N0 S N Sg : ℕ) (E m n x : ℝ) (j : ℤ)
    (hx : x < 1) (hj : (j:ℝ) < 1) (hl2 : 0 < lambda2) (hE0 : 1 < E0) (hn : 1 ≤ n) :
    psiEpsilonPdf beta lambda2 E0 N0 x = 0 ∧
    psiApproxPdf beta lambda2 E0 x = 0 ∧
    psiApproxCdf beta lambda2 E0 x = 0 ∧
    gammaPmf lambda1 beta2 S (PyNum.pyint j) = 0 ∧
    gammaCdf lambda1 beta2 S x = 0 ∧
    sadPmf lambda1 beta2 N (PyNum.pyint j) = 0 ∧
    sadCdf lambda1 beta2 N x = 0 ∧
    psiAgsnePdf lambda1 beta2 lambda3 S E Sg x = 0 ∧
    psiAgsneCdf lambda1 beta2 lambda3 S E x = 0 ∧
    thetaAgsnePdf lambda3 E m n x = 0 ∧
    thetaAgsneCdf lambda3 E m n x = 0 ∧
    0 < thetaEpsilonPdf beta lambda2 E0 x n := by
  have hnotin : ∀ b : ℝ, ¬(1 ≤ x ∧ x ≤ b) := fun b hcon => absurd hcon.1 (not_le.mpr hx)
  have hjval : PyNum.val (PyNum.pyint j) = (j : ℝ) := rfl
  refine ⟨?_, ?_, ?_, ?_, ?_, ?_, ?_, ?_, ?_, ?_, ?_, ?_⟩
  · rw [psiEpsilonPdf, if_neg (hnotin E0)]
  · rw [psiApproxPdf, if_neg (hnotin E0)]
  · rw [psiApproxCdf, if_neg (hnotin E0), if_pos hx]
  · rw [gammaPmf, if_neg]
    intro hcon
    rw [hjval] at hcon
    exact absurd hcon.1.1 (not_le.mpr hj)
  · rw [gammaCdf, if_neg (hnotin _), if_pos hx]
  · rw [sadPmf, if_neg]
    intro hcon
    rw [hjval] at hcon
    exact absurd hcon.1.1 (not_le.mpr hj)
  · rw [sadCdf, if_neg (hnotin _), if_pos hx]
  · rw [psiAgsnePdf, if_neg (hnotin E)]
  · rw [psiAgsneCdf, if_neg (hnotin E), if_pos hx]
  · rw [thetaAgsnePdf, if_neg (hnotin E)]
  · rw [thetaAgsneCdf, if_neg (hnotin E), if_pos hx]
  · rw [thetaEpsilonPdf, psiEpsilonSigma]
    have hnpos : (0:ℝ) < n := by linarith
    apply div_pos
    · exact mul_pos (mul_pos hl2 hnpos) (exp_pos _)
    · have hprod : 0 < (E0 - 1) * lambda2 * n :=
        mul_pos (mul_pos (by linarith) hl2) hnpos
      have hlt : -(beta + (E0 - 1) * lambda2) * n < -beta * n := by nlinarith
      have := exp_lt_exp.mpr hlt
      linarith

theorem support_zero_amended_witness :
    psiEpsilonPdf 1 1 2 1 0 = 0 ∧
    psiApproxPdf 1 1 2 0 = 0 ∧
    psiApproxCdf 1 1 2 0 = 0 ∧
    gammaPmf 0 1 3 (PyNum.pyint 0) = 0 ∧
    gammaCdf 0 1 3 0 = 0 ∧
    sadPmf 0 1 3 (PyNum.pyint 0) = 0 ∧
    sadCdf 0 1 3 0 = 0 ∧
    psiAgsnePdf 0 1 1 3 2 3 0 = 0 ∧
    psiAgsneCdf 0 1 1 3 2 0 = 0 ∧
    thetaAgsnePdf 1 2 1 1 0 = 0 ∧
    thetaAgsneCdf 1 2 1 1 0 = 0 ∧
    0 < thetaEpsilonPdf 1 1 2 0 1 :=
  support_zero_amended 1 1 2 0 1 1 1 3 3 3 2 1 1 0 0 (by norm_num) (by norm_num)
    (by norm_num) (by norm_num) (by norm_num)

/-- psi_epsilon object state: every attribute set by __init__. -/
structure PsiEpsilonObj where
  a : ℝ
  b : ℝ
  N0 : ℕ
  beta : ℝ
  lambda2 : ℝ
  sigma : ℝ
  norm_factor : ℝ

/-- psi_epsilon.pdf as a state-passing method: its body contains no
attribute assignment, so the state is returned as received. -/
noncomputable def psiEpsilonPdfM (s : PsiEpsilonObj) (x : ℝ) : ℝ × PsiEpsilonObj :=
  (if s.a ≤ x ∧ x ≤ s.b then
    s.norm_factor * exp (-(s.beta + (x - 1) * s.lambda2)) *
      (1 - (s.N0 + 1) * exp (-(s.beta + (x - 1) * s.lambda2)) ^ s.N0 +
        s.N0 * exp (-(s.beta + (x - 1) * s.lambda2)) ^ (s.N0 + 1)) /
      (1 - exp (-(s.beta + (x - 1) * s.lambda2))) ^ 2
  else 0, s)

/-- psi_epsilon.cdf as a state-passing method. -/
noncomputable def psiEpsilonCdfM (I : ℝ → ℝ → ℝ → ℕ → ℝ) (s : PsiEpsilonObj) (x : ℝ) :
    ℝ × PsiEpsilonObj :=
  (s.norm_factor / s.lambda2 *
    (1 / (1 - exp (-s.beta)) - 1 / (1 - exp (-(s.beta + (x - 1) * s.lambda2))) +
      I x s.beta s.lambda2 s.N0), s)

/-- gamma_agsne object state: every attribute set by __init__. -/
structure GammaObj where
  G : ℕ
  S : ℕ
  N : ℕ
  E : ℝ
  a : ℝ
  b : ℝ
  lambda1 : ℝ
  beta : ℝ
  lambda3 : ℝ
  z : ℝ
  norm : ℝ

/-- gamma_agsne.pmf as a state-passing method. -/
noncomputable def gammaPmfM (g : GammaObj) (v : PyNum) : ℝ × GammaObj :=
  (if (g.a ≤ v.val ∧ v.val ≤ g.b) ∧ v.isInt = true then
    exp (-g.lambda1 * v.val) * Real.log (1 / (1 - exp (-g.beta * v.val))) / v.val / g.norm
  else 0, g)

/-- gamma_agsne.cdf as a state-passing method. -/
noncomputable def gammaCdfM (g : GammaObj) (x : ℝ) : ℝ × GammaObj :=
  (if g.a ≤ x ∧ x ≤ g.b then
    (∑ i in Finset.Icc 1 (⌊x⌋.toNat),
      exp (-g.lambda1 * i) * Real.log (1 / (1 - exp (-g.beta * i))) / x) / g.norm
  else if x < g.a then 0 else 1, g)

/-- psi_epsilon.ppf as a state-passing method: scipy's bisect enters as
the external parameter bisect; the objective reads the object only
through the pure cdf evaluation. -/
noncomputable def psiEpsilonPpfM (I : ℝ → ℝ → ℝ → ℕ → ℝ) (bisect : (ℝ → ℝ) → ℝ → ℝ → ℝ)
    (s : PsiEpsilonObj) (q : ℝ) : ℝ × PsiEpsilonObj :=
  (bisect (fun t => (psiEpsilonCdfM I s t).1 - q) s.a s.b, s)

/-- psi_epsilon.rvs as a state-passing method, the scipy uniform draws
injected as the list rands: one ppf inversion per draw. -/
noncomputable def psiEpsilonRvsM (I : ℝ → ℝ → ℝ → ℕ → ℝ) (bisect : (ℝ → ℝ) → ℝ → ℝ → ℝ)
    (s : PsiEpsilonObj) (rands : List ℝ) : List ℝ × PsiEpsilonObj :=
  (rands.map fun r => (psiEpsilonPpfM I bisect s r).1, s)

/-- psi_epsilon.E as a state-passing method: mpmath.quad enters as the
external parameter quad applied to x * pdf(x) over [a, b]. -/
noncomputable def psiEpsilonEM (quad : (ℝ → ℝ) → ℝ → ℝ → ℝ) (s : PsiEpsilonObj) :
    ℝ × PsiEpsilonObj :=
  (quad (fun x => x * (psiEpsilonPdfM s x).1) s.a s.b, s)

/-- psi_epsilon_approx object state: every attribute set by __init__. -/
structure PsiApproxObj where
  a : ℝ
  b : ℝ
  N0 : ℕ
  beta : ℝ
  lambda2 : ℝ
  sigma : ℝ
  norm_factor : ℝ

/-- psi_epsilon_approx.pdf as a state-passing method. -/
noncomputable def psiApproxPdfM (s : PsiApproxObj) (x : ℝ) : ℝ × PsiApproxObj :=
  (if s.a ≤ x ∧ x ≤ s.b then
    exp (-(s.beta + (x - 1) * s.lambda2)) / (1 - exp (-(s.beta + (x - 1) * s.lambda2))) ^ 2 /
      s.norm_factor
  else 0, s)

/-- psi_epsilon_approx.cdf as a state-passing method. -/
noncomputable def psiApproxCdfM (s : PsiApproxObj) (x : ℝ) : ℝ × PsiApproxObj :=
  (if s.a ≤ x ∧ x ≤ s.b then
    ((1 / (1 - exp (-s.beta)) - 1 / (1 - exp (-(s.beta + (x - 1) * s.lambda2)))) / s.lambda2) /
      s.norm_factor
  else if x < s.a then 0 else 1, s)

/-- psi_epsilon_approx.ppf as a state-passing method (closed form). -/
noncomputable def psiApproxPpfM (s : PsiApproxObj) (q : ℝ) : ℝ × PsiApproxObj :=
  ((-(Real.log (1 - 1 / (1 / (1 - exp (-s.beta)) - q * s.norm_factor * s.lambda2))) -
      (s.beta - s.lambda2)) / s.lambda2, s)

/-- psi_epsilon_approx.rvs as a state-passing method over injected
uniform draws. -/
noncomputable def psiApproxRvsM (s : PsiApproxObj) (rands : List ℝ) : List ℝ × PsiApproxObj :=
  (rands.map fun r => (psiApproxPpfM s r).1, s)

/-- theta_epsilon object state: every attribute set by __init__. -/
structure ThetaEpsilonObj where
  a : ℝ
  b : ℝ
  beta : ℝ
  lambda2 : ℝ
  lambda1 : ℝ
  sigma : ℝ

/-- theta_epsilon.pdf as a state-passing method (no support guard in the
source). -/
noncomputable def thetaEpsilonPdfM (s : ThetaEpsilonObj) (x n : ℝ) : ℝ × ThetaEpsilonObj :=
  (s.lambda2 * n * exp (-(s.lambda1 + s.lambda2 * x) * n) /
    (exp (-s.beta * n) - exp (-s.sigma * n)), s)

/-- theta_epsilon.logpdf as a state-passing method. -/
noncomputable def thetaEpsilonLogpdfM (s : ThetaEpsilonObj) (x n : ℝ) : ℝ × ThetaEpsilonObj :=
  (Real.log s.lambda2 + Real.log n - (s.lambda1 + s.lambda2 * x) * n -
    Real.log (exp (-s.beta * n) - exp (-s.sigma * n)), s)

/-- theta_epsilon.cdf as a state-passing method: mpmath.quad of
pdf(., n) over [1, x] through the external parameter quad. -/
noncomputable def thetaEpsilonCdfM (quad : (ℝ → ℝ) → ℝ → ℝ → ℝ) (s : ThetaEpsilonObj)
    (x n : ℝ) : ℝ × ThetaEpsilonObj :=
  (quad (fun t => (thetaEpsilonPdfM s t n).1) 1 x, s)

/-- theta_epsilon.ppf as a state-passing method via the external bisect. -/
noncomputable def thetaEpsilonPpfM (quad : (ℝ → ℝ) → ℝ → ℝ → ℝ)
    (bisect : (ℝ → ℝ) → ℝ → ℝ → ℝ) (s : ThetaEpsilonObj) (n q : ℝ) : ℝ × ThetaEpsilonObj :=
  (bisect (fun t => (thetaEpsilonCdfM quad s t n).1 - q) s.a s.b, s)

/-- The resampling loop of theta_epsilon.rvs for one output: draw from
the injected trunc_expon stream until the draw is ≤ b, with fuel
bounding the resampling; returns the accepted draw and the next stream
index. -/
noncomputable def thetaRejectDraw (b : ℝ) (draws : ℕ → ℝ) : ℕ → ℕ → Option (ℝ × ℕ)
  | 0, _ => none
  | fuel + 1, ix =>
    if draws ix ≤ b then some (draws ix, ix + 1) else thetaRejectDraw b draws fuel (ix + 1)

/-- size successive accepted draws for theta_epsilon.rvs. -/
noncomputable def thetaRejectList (b : ℝ) (draws : ℕ → ℝ) (fuel : ℕ) :
    ℕ → ℕ → Option (List ℝ)
  | 0, _ => some []
  | size + 1, ix =>
    match thetaRejectDraw b draws fuel ix with
    | none => none
    | some (r, ix2) =>
      match thetaRejectList b draws fuel size ix2 with
      | none => none
      | some rest => some (r :: rest)

/-- theta_epsilon.rvs as a state-passing method: the external
trunc_expon.rvs(rate, 1) stream enters as draws (rate applied first,
here lambda2 * n), resampling while a draw exceeds b. -/
noncomputable def thetaEpsilonRvsM (draws : ℝ → ℕ → ℝ) (fuel : ℕ) (s : ThetaEpsilonObj)
    (n : ℝ) (size : ℕ) : Option (List ℝ) × ThetaEpsilonObj :=
  (thetaRejectList s.b (draws (s.lambda2 * n)) fuel size 0, s)

/-- theta_epsilon.E as a state-passing method: quad of x * pdf(x, n)
over [a, b]. -/
noncomputable def thetaEpsilonEM (quad : (ℝ → ℝ) → ℝ → ℝ → ℝ) (s : ThetaEpsilonObj)
    (n : ℝ) : ℝ × ThetaEpsilonObj :=
  (quad (fun x => x * (thetaEpsilonPdfM s x n).1) s.a s.b, s)

/-- sad_agsne object state: every attribute set by __init__. -/
structure SadObj where
  G : ℕ
  S : ℕ
  N : ℕ
  E : ℝ
  a : ℝ
  b : ℝ
  lambda1 : ℝ
  beta : ℝ
  lambda3 : ℝ
  z : ℝ
  norm : ℝ

/-- sad_agsne.pmf as a state-passing method. -/
noncomputable def sadPmfM (s : SadObj) (v : PyNum) : ℝ × SadObj :=
  (if (s.a ≤ v.val ∧ v.val ≤ s.b) ∧ v.isInt = true then
    exp (-s.lambda1 - s.beta * v.val) / v.val / (1 - exp (-s.lambda1 - s.beta * v.val)) /
      s.norm
  else 0, s)

/-- sad_agsne.logpmf as a state-passing method (error branch as none). -/
noncomputable def sadLogpmfM (s : SadObj) (v : PyNum) : Option ℝ × SadObj :=
  (if (s.a ≤ v.val ∧ v.val ≤ s.b) ∧ v.isInt = true then
    some (-s.lambda1 - s.beta * v.val - Real.log v.val -
      Real.log (1 - exp (-s.lambda1 - s.beta * v.val)) - Real.log s.norm)
  else none, s)

/-- sad_agsne.cdf as a state-passing method. -/
noncomputable def sadCdfM (s : SadObj) (x : ℝ) : ℝ × SadObj :=
  (if s.a ≤ x ∧ x ≤ s.b then
    (∑ i in Finset.Icc 1 (⌊x⌋.toNat),
      exp (-s.lambda1 - s.beta * i) / i / (1 - exp (-s.lambda1 - s.beta * i))) / s.norm
  else if x < s.a then 0 else 1, s)

/-- sad_agsne.rvs as a state-passing method: the sorted-sweep over the
injected uniform draws, with loop bound i ≤ b + 1 where b = N. -/
noncomputable def sadRvsM (s : SadObj) (rands : List ℝ) : Option (List ℕ) × SadObj :=
  (match rands with
   | [] => none
   | r :: rs =>
     sweep (fun i => (sadPmfM s (PyNum.pyint i)).1) (s.N + 1) 1 0
       (List.insertionSort (· ≤ ·) (r :: rs)), s)

/-- psi_agsne object state: every attribute set by __init__. -/
structure PsiAgsneObj where
  G : ℕ
  S : ℕ
  N : ℕ
  E : ℝ
  a : ℝ
  b : ℝ
  lambda1 : ℝ
  beta : ℝ
  lambda3 : ℝ
  z : ℝ
  lambda2 : ℝ
  exp_neg_lambda1 : ℝ
  norm : ℝ

/-- psi_agsne.pdf as a state-passing method (the summation bound is the
free module-level name S, passed as Sglob). -/
noncomputable def psiAgsnePdfM (s : PsiAgsneObj) (Sglob : ℕ) (x : ℝ) : ℝ × PsiAgsneObj :=
  (if s.a ≤ x ∧ x ≤ s.b then
    (∑ m in Finset.Icc 1 Sglob,
      m * (exp (-(s.lambda2 + x * s.lambda3)) * s.exp_neg_lambda1) ^ m /
        (1 - exp (-(s.lambda2 + x * s.lambda3)) ^ m) ^ 2) / s.norm
  else 0, s)

/-- psi_agsne.cdf as a state-passing method. -/
noncomputable def psiAgsneCdfM (s : PsiAgsneObj) (x : ℝ) : ℝ × PsiAgsneObj :=
  (if s.a ≤ x ∧ x ≤ s.b then
    (1 / s.lambda3 * ∑ m in Finset.Icc 1 s.S, exp (-s.lambda1 * m) *
      (1 / (1 - exp (-s.beta * m)) - 1 / (1 - exp (-(s.lambda2 + x * s.lambda3) * m)))) /
      s.norm
  else if x < s.a then 0 else 1, s)

/-- psi_agsne.ppf as a state-passing method via the external bisect. -/
noncomputable def psiAgsnePpfM (bisect : (ℝ → ℝ) → ℝ → ℝ → ℝ) (s : PsiAgsneObj)
    (q : ℝ) : ℝ × PsiAgsneObj :=
  (bisect (fun t => (psiAgsneCdfM s t).1 - q) s.a s.b, s)

/-- psi_agsne.rvs as a state-passing method over injected uniform draws. -/
noncomputable def psiAgsneRvsM (bisect : (ℝ → ℝ) → ℝ → ℝ → ℝ) (s : PsiAgsneObj)
    (rands : List ℝ) : List ℝ × PsiAgsneObj :=
  (rands.map fun r => (psiAgsnePpfM bisect s r).1, s)

/-- theta_agsne object state: every attribute set by __init__. -/
structure ThetaAgsneObj where
  G : ℕ
  S : ℕ
  N : ℕ
  E : ℝ
  a : ℝ
  b : ℝ
  lambda1 : ℝ
  beta : ℝ
  lambda3 : ℝ
  z : ℝ

/-- theta_agsne.pdf as a state-passing method. -/
noncomputable def thetaAgsnePdfM (s : ThetaAgsneObj) (x m n : ℝ) : ℝ × ThetaAgsneObj :=
  (if s.a ≤ x ∧ x ≤ s.b then
    s.lambda3 * m * n / (exp (-s.lambda3 * m * n) - exp (-s.lambda3 * m * n * s.E)) *
      exp (-s.lambda3 * m * n * x)
  else 0, s)

/-- theta_agsne.cdf as a state-passing method. -/
noncomputable def thetaAgsneCdfM (s : ThetaAgsneObj) (x m n : ℝ) : ℝ × ThetaAgsneObj :=
  (if s.a ≤ x ∧ x ≤ s.b then
    (exp (-s.lambda3 * m * n) - exp (-s.lambda3 * m * n * x)) /
      (exp (-s.lambda3 * m * n) - exp (-s.lambda3 * m * n * s.E))
  else if x < s.a then 0 else 1, s)

/-- theta_agsne.ppf as a state-passing method (closed form). -/
noncomputable def thetaAgsnePpfM (s : ThetaAgsneObj) (q m n : ℝ) : ℝ × ThetaAgsneObj :=
  ((-1 / s.lambda3 / m / n) * Real.log (exp (-s.lambda3 * m * n) -
    q * (exp (-s.lambda3 * m * n) - exp (-s.lambda3 * m * n * s.E))), s)

/-- theta_agsne.rvs as a state-passing method over injected uniform
draws. -/
noncomputable def thetaAgsneRvsM (s : ThetaAgsneObj) (rands : List ℝ) (m n : ℝ) :
    List ℝ × ThetaAgsneObj :=
  (rands.map fun r => (thetaAgsnePpfM s r m n).1, s)

/-- theta_agsne.expected as a state-passing method. -/
noncomputable def thetaAgsneExpectedM (s : ThetaAgsneObj) (m n : ℝ) : ℝ × ThetaAgsneObj :=
  ((exp (-s.lambda3 * m * n) * (s.lambda3 * m * n + 1) -
      exp (-s.lambda3 * m * n * s.E) * (s.lambda3 * m * n * s.E + 1)) /
    (s.lambda3 * m * n * (exp (-s.lambda3 * m * n) - exp (-s.lambda3 * m * n * s.E))), s)

/-- C9: every public evaluation call of every distribution object —
pdf/pmf, logpdf/logpmf, cdf, ppf, rvs, E/expected of psi_epsilon,
psi_epsilon_approx, theta_epsilon, gamma_agsne, sad_agsne, psi_agsne and
theta_agsne — leaves every construction-time attribute unchanged: no
method body contains an attribute assignment, so each state-passing
translation returns the object state exactly as received; the external
numeric collaborators (get_integral_for_psi_cdf, scipy bisect,
mpmath.quad, scipy uniforms, trunc_expon draws) enter as parameters and
read the object only through these pure evaluations. -/
theorem methods_preserve_state (s1 : PsiEpsilonObj) (s2 : PsiApproxObj)
    (s3 : ThetaEpsilonObj) (g : GammaObj) (s5 : SadObj) (s6 : PsiAgsneObj)
    (s7 : ThetaAgsneObj) (I : ℝ → ℝ → ℝ → ℕ → ℝ) (bisect : (ℝ → ℝ) → ℝ → ℝ → ℝ)
    (quad : (ℝ → ℝ) → ℝ → ℝ → ℝ) (draws : ℝ → ℕ → ℝ)
    (x q n m : ℝ) (v : PyNum) (rands : List ℝ) (size fuel Sglob : ℕ) :
    ((psiEpsilonPdfM s1 x).2 = s1 ∧ (psiEpsilonCdfM I s1 x).2 = s1 ∧
      (psiEpsilonPpfM I bisect s1 q).2 = s1 ∧ (psiEpsilonRvsM I bisect s1 rands).2 = s1 ∧
      (psiEpsilonEM quad s1).2 = s1) ∧
    ((psiApproxPdfM s2 x).2 = s2 ∧ (psiApproxCdfM s2 x).2 = s2 ∧
      (psiApproxPpfM s2 q).2 = s2 ∧ (psiApproxRvsM s2 rands).2 = s2) ∧
    ((thetaEpsilonPdfM s3 x n).2 = s3 ∧ (thetaEpsilonLogpdfM s3 x n).2 = s3 ∧
      (thetaEpsilonCdfM quad s3 x n).2 = s3 ∧ (thetaEpsilonPpfM quad bisect s3 n q).2 = s3 ∧
      (thetaEpsilonRvsM draws fuel s3 n size).2 = s3 ∧ (thetaEpsilonEM quad s3 n).2 = s3) ∧
    ((gammaPmfM g v).2 = g ∧ (gammaCdfM g x).2 = g) ∧
    ((sadPmfM s5 v).2 = s5 ∧ (sadLogpmfM s5 v).2 = s5 ∧ (sadCdfM s5 x).2 = s5 ∧
      (sadRvsM s5 rands).2 = s5) ∧
    ((psiAgsnePdfM s6 Sglob x).2 = s6 ∧ (psiAgsneCdfM s6 x).2 = s6 ∧
      (psiAgsnePpfM bisect s6 q).2 = s6 ∧ (psiAgsneRvsM bisect s6 rands).2 = s6) ∧
    ((thetaAgsnePdfM s7 x m n).2 = s7 ∧ (thetaAgsneCdfM s7 x m n).2 = s7 ∧
      (thetaAgsnePpfM s7 q m n).2 = s7 ∧ (thetaAgsneRvsM s7 rands m n).2 = s7 ∧
      (thetaAgsneExpectedM s7 m n).2 = s7) :=
  ⟨⟨rfl, rfl, rfl, rfl, rfl⟩, ⟨rfl, rfl, rfl, rfl⟩, ⟨rfl, rfl, rfl, rfl, rfl, rfl⟩,
    ⟨rfl, rfl⟩, ⟨rfl, rfl, rfl, rfl⟩, ⟨rfl, rfl, rfl, rfl⟩, ⟨rfl, rfl, rfl, rfl, rfl⟩⟩

end METE
